import Mathlib

/-!
Shallow embedding of the vacancy fetch-and-ingest pipeline
(`src/db_manager.py`, `src/hh_api.py`).

The relational store manipulated through psycopg2 is modelled as an explicit
`DBState`: the `companies` and `vacancies` tables are lists of rows in
insertion order, together with the id sequences.  Each SQL statement issued by
`DBManager` is translated to a pure state transformer with the semantics the
statement has under PostgreSQL (`ON CONFLICT ... DO NOTHING`, `ILIKE`,
`COALESCE`, `AVG`).  The HTTP transport is modelled as a function from page
index to a response (status plus JSON `items`), and the thread-pool
coordinator as a fold over per-company task outcomes in submission order —
the order in which `get_all_vacancies_for_companies` iterates its futures
dict and serialises all persistence calls.
-/

namespace Pipeline

/-- A row of the `companies` table:
`companies(id PK, name UNIQUE NOT NULL, industry NULL, area NULL)`. -/
structure CompanyRow where
  id : Nat
  name : String
  industry : Option String
  area : Option String
  deriving Repr, DecidableEq

/-- A row of the `vacancies` table:
`vacancies(id PK, title NOT NULL, salary_min NULL, salary_max NULL,
url UNIQUE NOT NULL, company_id FK)`. -/
structure VacancyRow where
  id : Nat
  title : String
  salary_min : Option Int
  salary_max : Option Int
  url : String
  company_id : Nat
  deriving Repr, DecidableEq

/-- The database state: both tables in physical insertion order, plus the
serial id sequences backing the two primary keys. -/
structure DBState where
  companies : List CompanyRow
  vacancies : List VacancyRow
  nextCompanyId : Nat
  nextVacancyId : Nat
  deriving Repr, DecidableEq

/-- The empty database. -/
def DBState.empty : DBState := ⟨[], [], 0, 0⟩

/-- Model of `DBManager.insert_company`: executes
`INSERT INTO companies (name, industry, area) VALUES (%s,%s,%s)
ON CONFLICT (name) DO NOTHING RETURNING id`; when the conflict clause fired
(no row returned) it falls back to `SELECT id FROM companies WHERE name = %s`.
Returns the id together with the state after the statement. -/
def insert_company (s : DBState) (company_name : String)
    (industry area : Option String) : Nat × DBState :=
  match s.companies.find? (fun row => row.name = company_name) with
  | some row => (row.id, s)
  | none =>
      (s.nextCompanyId,
        { s with
          companies :=
            s.companies ++ [⟨s.nextCompanyId, company_name, industry, area⟩],
          nextCompanyId := s.nextCompanyId + 1 })

/-- A parameter tuple for the bulk insert:
`(title, salary_min, salary_max, url, company_id)`. -/
structure VacancyRecord where
  title : String
  salary_min : Option Int
  salary_max : Option Int
  url : String
  company_id : Nat
  deriving Repr, DecidableEq

/-- One execution of
`INSERT INTO vacancies (title, salary_min, salary_max, url, company_id)
VALUES (%s,%s,%s,%s,%s) ON CONFLICT (url) DO NOTHING`
for a single parameter tuple. -/
def insertVacancyStep (s : DBState) (r : VacancyRecord) : DBState :=
  if s.vacancies.any (fun row => row.url = r.url) then s
  else
    { s with
      vacancies :=
        s.vacancies ++
          [⟨s.nextVacancyId, r.title, r.salary_min, r.salary_max, r.url,
            r.company_id⟩],
      nextVacancyId := s.nextVacancyId + 1 }

/-- `DBManager.insert_vacancies_bulk`: `cursor.executemany` runs the
single-row `ON CONFLICT (url) DO NOTHING` insert once per parameter tuple, in
list order. -/
def insert_vacancies_bulk (s : DBState) (vacancies : List VacancyRecord) :
    DBState :=
  vacancies.foldl insertVacancyStep s

/-- Names in the `companies` table are pairwise distinct — the invariant the
`UNIQUE NOT NULL` constraint on `companies.name` maintains. -/
def uniqueNames (s : DBState) : Prop :=
  s.companies.Pairwise (fun a b => a.name ≠ b.name)

/-- The url appears in the `vacancies` table. -/
def urlPresent (s : DBState) (u : String) : Prop :=
  ∃ row ∈ s.vacancies, row.url = u

instance (s : DBState) (u : String) : Decidable (urlPresent s u) := by
  unfold urlPresent; infer_instance

/-! ### Read-side SQL queries of `DBManager` -/

/-- Predicate of the `WHERE` clause of `DBManager.get_avg_salary`:
`v.salary_min IS NOT NULL OR v.salary_max IS NOT NULL`. -/
def qualifies (row : VacancyRow) : Bool :=
  row.salary_min.isSome || row.salary_max.isSome

/-- The selected expression of `DBManager.get_avg_salary`:
`(COALESCE(v.salary_min, 0) + COALESCE(v.salary_max, 0)) / 2.0`. -/
def midpoint (row : VacancyRow) : Rat :=
  ((row.salary_min.getD 0 + row.salary_max.getD 0 : Int) : Rat) / 2

/-- Model of `DBManager.get_avg_salary`: `SELECT AVG(midpoint) FROM vacancies
WHERE salary_min IS NOT NULL OR salary_max IS NOT NULL`; SQL `AVG` over an
empty selection is `NULL`, surfaced by `fetchone()[0]` as `None`. -/
def get_avg_salary (s : DBState) : Option Rat :=
  let rows := s.vacancies.filter qualifies
  if rows.isEmpty then none
  else some ((rows.map midpoint).sum / (rows.length : Rat))

/-- Spelling of claim C2's averaging rule for the vacancies table, written
from the claim: every row contributes its midpoint to the sum exactly when at
least one bound is present, rows with both bounds absent contribute neither
to the sum (summed over all rows, with contribution 0) nor to the count. -/
def claimAvgRows (s : DBState) : Option Rat :=
  let n := (s.vacancies.filter qualifies).length
  if n = 0 then none
  else
    some ((s.vacancies.map fun r => if qualifies r then midpoint r else 0).sum
            / (n : Rat))

/-- Lowercasing used to model case-insensitive comparison (`ILIKE`,
Python `str.lower`): the character list of the string, lowercased. -/
def strLower (s : String) : List Char :=
  s.toList.map Char.toLower

/-- PostgreSQL `LIKE` pattern matching over character lists, as used by the
`ILIKE` operator in `DBManager.get_vacancies_with_keyword`: `%` matches any
sequence, `_` any single character, and backslash escapes the character that
follows it; every other character matches itself. -/
def likeMatch : List Char → List Char → Bool
  | [], s => s.isEmpty
  | c :: p, s =>
    if c = '\\' then
      match p, s with
      | pc :: p2, c2 :: s2 => pc = c2 && likeMatch p2 s2
      | _, _ => false
    else if c = '%' then
      likeMatch p s ||
        (match s with
         | [] => false
         | _ :: s2 => likeMatch (c :: p) s2)
    else if c = '_' then
      match s with
      | [] => false
      | _ :: s2 => likeMatch p s2
    else
      match s with
      | [] => false
      | c2 :: s2 => c = c2 && likeMatch p s2
termination_by p s => (s.length, p.length)

/-- PostgreSQL `ILIKE`: `LIKE` after lowercasing both operands. -/
def ilike (s pat : String) : Bool :=
  likeMatch (strLower pat) (strLower s)

/-- The `FROM vacancies v JOIN companies c ON v.company_id = c.id` row set
shared by the read queries. -/
def joinedRows (s : DBState) : List (VacancyRow × CompanyRow) :=
  s.vacancies.flatMap fun v =>
    (s.companies.filter fun c => c.id = v.company_id).map fun c => (v, c)

/-- Model of `DBManager.get_vacancies_with_keyword`: the join filtered by
`v.title ILIKE '%' || keyword || '%'`. -/
def get_vacancies_with_keyword (s : DBState) (keyword : String) :
    List (VacancyRow × CompanyRow) :=
  (joinedRows s).filter fun p => ilike p.1.title ("%" ++ keyword ++ "%")

/-! ### The HTTP fetch layer (`get_vacancies_for_company`) -/

/-- One page response of the vacancies endpoint: HTTP 200 with the JSON
`items` array, or a non-success status code. -/
inductive PageResponse (α : Type) where
  | ok (items : List α)
  | err (status : Nat)
  deriving Repr, DecidableEq

/-- The `for page in range(pages)` loop of `get_vacancies_for_company`,
instrumented with the list of page indices actually requested: starting at
`page` with `fuel` loop iterations left, request pages until a page returns
fewer than 100 (= `per_page`) items, a non-200 status arrives, or the range
is exhausted.  Returns the requested page indices and the accumulated items
from this point on. -/
def fetchLoop {α : Type} (fetch : Nat → PageResponse α) :
    Nat → Nat → List Nat × List α
  | _, 0 => ([], [])
  | page, fuel + 1 =>
    match fetch page with
    | .ok items =>
      if items.length < 100 then ([page], items)
      else
        let rest := fetchLoop fetch (page + 1) fuel
        (page :: rest.1, items ++ rest.2)
    | .err _ => ([page], [])

/-- Model of `get_vacancies_for_company(company_id, pages)` (identical in
`src/hh_api.py` and `src/db_manager.py`): the transport is abstracted as a
function from page index to response; the result pairs the trace of issued
page requests with the returned `all_vacancies` list. -/
def get_vacancies_for_company {α : Type} (fetch : Nat → PageResponse α)
    (pages : Nat) : List Nat × List α :=
  fetchLoop fetch 0 pages

/-! ### Raw API records and the `hh_api.py` reporting functions -/

/-- The optional nested `salary` sub-object of a raw vacancy record, with its
optional `from` and `to` integer bounds. -/
structure Salary where
  sfrom : Option Int
  sto : Option Int
  deriving Repr, DecidableEq

/-- A raw API vacancy record, with the JSON fields the pipeline reads:
`name`, `salary`, `alternate_url`; each may be absent (or JSON `null`). -/
structure RawVacancy where
  name : Option String
  salary : Option Salary
  alternate_url : Option String
  deriving Repr, DecidableEq

/-- Python's `value or 0` applied to an optional salary bound fetched with
`salary.get(field, 0)`: both a missing field and an explicit `null` give 0. -/
def coalesce0 (o : Option Int) : Int :=
  o.getD 0

/-- The body of the vacancy loop of `calculate_average_salary`, acting on the
accumulator pair `(total_salary, salary_count)`: a vacancy is counted when
its `salary` object is truthy and `salary.get('from') or salary.get('to')`
is truthy; the added amount is the midpoint when both bounds are truthy,
otherwise the single truthy bound. -/
def salaryAccStep (acc : Rat × Nat) (v : RawVacancy) : Rat × Nat :=
  match v.salary with
  | none => acc
  | some sal =>
    if coalesce0 sal.sfrom ≠ 0 ∨ coalesce0 sal.sto ≠ 0 then
      let f : Rat := (coalesce0 sal.sfrom : Int)
      let t : Rat := (coalesce0 sal.sto : Int)
      let average := if f ≠ 0 ∧ t ≠ 0 then (f + t) / 2 else if f ≠ 0 then f else t
      (acc.1 + average, acc.2 + 1)
    else acc

/-- The accumulator pair `(total_salary, salary_count)` left by the nested
loops of `calculate_average_salary` over `vacancies_by_company.values()`. -/
def salaryTotals (vbc : List (String × List RawVacancy)) : Rat × Nat :=
  vbc.foldl (fun a p => p.2.foldl salaryAccStep a) (0, 0)

/-- Model of `hh_api.calculate_average_salary`: returns
`total_salary / salary_count if salary_count > 0 else 0`. -/
def calculate_average_salary (vbc : List (String × List RawVacancy)) : Rat :=
  let acc := salaryTotals vbc
  if 0 < acc.2 then acc.1 / (acc.2 : Rat) else 0

/-- Written from claim C2's words: a vacancy contributes exactly when at
least one salary bound is present (the field is there and non-null). -/
def claimContributes (v : RawVacancy) : Bool :=
  match v.salary with
  | none => false
  | some sal => sal.sfrom.isSome || sal.sto.isSome

/-- Written from claim C2's words: the midpoint
`(coalesce(salary_min, 0) + coalesce(salary_max, 0)) / 2` of a raw record. -/
def claimMidpoint (v : RawVacancy) : Rat :=
  match v.salary with
  | none => 0
  | some sal => ((coalesce0 sal.sfrom + coalesce0 sal.sto : Int) : Rat) / 2

/-- Claim C2's stated value on raw vacancies grouped by company: the
arithmetic mean of the midpoints over exactly the contributing vacancies. -/
def claimAverageSalary (vbc : List (String × List RawVacancy)) : Rat :=
  let qual := ((vbc.map Prod.snd).flatten).filter claimContributes
  if qual.isEmpty then 0
  else (qual.map claimMidpoint).sum / (qual.length : Rat)

/-- The contribution rule `calculate_average_salary` actually applies,
restated declaratively for the amended claim: a truthy (non-null, non-zero)
pair of bounds contributes the midpoint, a single truthy bound contributes
that bound alone. -/
def truthyContributes (v : RawVacancy) : Bool :=
  match v.salary with
  | none => false
  | some sal => coalesce0 sal.sfrom != 0 || coalesce0 sal.sto != 0

/-- Per-vacancy amount for the amended claim C2 (see `truthyContributes`). -/
def truthyAmount (v : RawVacancy) : Rat :=
  match v.salary with
  | none => 0
  | some sal =>
    if coalesce0 sal.sfrom ≠ 0 ∧ coalesce0 sal.sto ≠ 0 then
      ((coalesce0 sal.sfrom + coalesce0 sal.sto : Int) : Rat) / 2
    else if coalesce0 sal.sfrom ≠ 0 then ((coalesce0 sal.sfrom : Int) : Rat)
    else ((coalesce0 sal.sto : Int) : Rat)

/-- The amended claim C2's value: mean of `truthyAmount` over exactly the
vacancies selected by `truthyContributes`, 0 when none qualifies. -/
def amendedAverageSalary (vbc : List (String × List RawVacancy)) : Rat :=
  let qual := ((vbc.map Prod.snd).flatten).filter truthyContributes
  if qual.isEmpty then 0
  else (qual.map truthyAmount).sum / (qual.length : Rat)

/-- Python's substring operator `needle in hay` on strings, as character
lists: some suffix of `hay` starts with `needle`. -/
def containsSub (needle : List Char) : List Char → Bool
  | [] => needle.isEmpty
  | c :: t => needle.isPrefixOf (c :: t) || containsSub needle t

/-- The per-company list comprehension of `hh_api.search_vacancies_by_keyword`:
`[v for v in vacancies if keyword in v.get('name', '').lower()]`, where
`keyword` has already been lowercased. -/
def matchingVacancies (kw : List Char) (vs : List RawVacancy) :
    List RawVacancy :=
  vs.filter fun v => containsSub kw (strLower (v.name.getD ""))

/-- Model of `hh_api.search_vacancies_by_keyword`'s selection: lowercase the
keyword once, then keep each company's matching vacancies. -/
def search_vacancies_by_keyword (vbc : List (String × List RawVacancy))
    (keyword : String) : List (String × List RawVacancy) :=
  let kw := strLower keyword
  vbc.map fun p => (p.1, matchingVacancies kw p.2)

/-! ### The coordinator (`db_manager.get_all_vacancies_for_companies`) -/

/-- A company descriptor handed to the coordinator: the dict with `id`,
`name`, and optional `industry` / `area` keys. -/
structure CompanyDesc where
  id : Option String
  name : String
  industry : Option String
  area : Option String
  deriving Repr, DecidableEq

/-- The outcome `future.result()` presents for one company's fetch task:
either the fetched vacancy list, or the re-raised exception of the task. -/
inductive TaskOutcome where
  | exn
  | ok (vacancies : List RawVacancy)
  deriving Repr, DecidableEq

/-- The normalization the coordinator applies to one raw record before the
bulk insert: title defaults to a placeholder, the bounds come from the nested
salary object when it is truthy, the url defaults to a placeholder. -/
def normalizeVacancy (company_id : Nat) (v : RawVacancy) : VacancyRecord :=
  { title := v.name.getD "Не указано"
    salary_min := match v.salary with
      | some sal => sal.sfrom
      | none => none
    salary_max := match v.salary with
      | some sal => sal.sto
      | none => none
    url := v.alternate_url.getD "Нет ссылки"
    company_id := company_id }

/-- The body of the coordinator's `for future in futures` loop for one
company: an exception from the task is caught by the `try`/`except` and
reported with the company's name; a non-empty result is persisted by
upserting the company, normalizing every record with the resolved id, and
bulk-inserting the batch; an empty result makes no persistence call. -/
def processCompany (db : DBState) (c : CompanyDesc) (outcome : TaskOutcome) :
    DBState × List String :=
  match outcome with
  | .exn => (db, [c.name])
  | .ok vacancies =>
    if vacancies.isEmpty then (db, [])
    else
      (insert_vacancies_bulk (insert_company db c.name c.industry c.area).2
        (vacancies.map (normalizeVacancy
          (insert_company db c.name c.industry c.area).1)), [])

/-- One iteration of the coordinator's loop on the accumulated
(database state, reported errors) pair. -/
def coordStep (acc : DBState × List String)
    (t : CompanyDesc × TaskOutcome) : DBState × List String :=
  let r := processCompany acc.1 t.1 t.2
  (r.1, acc.2 ++ r.2)

/-- Model of `db_manager.get_all_vacancies_for_companies`: all fetch tasks
run on the pool without touching the database; the coordinator then walks
the futures dict in submission order and serialises every persistence call,
folding `processCompany` over the (company, outcome) pairs while collecting
the reported errors. -/
def get_all_vacancies_for_companies (db : DBState)
    (tasks : List (CompanyDesc × TaskOutcome)) : DBState × List String :=
  tasks.foldl coordStep (db, [])

/-- A persistence failure injected into one company's `try` block: either
`insert_company` raises — its `execute`/`commit` never takes effect, so the
state is unchanged — or `insert_company` succeeds (company row committed, id
returned) and `insert_vacancies_bulk` raises; the bulk method issues its one
`commit` only after all tuples, so a raise inside it persists nothing of the
batch while the already committed company row stays. -/
inductive PersistFault where
  | atInsertCompany
  | atBulk
  deriving Repr, DecidableEq

/-- The outcome of one company's iteration of the coordinator loop with the
exception source made explicit: `future.result()` re-raises the task's fetch
exception, or the fetch returns `vacancies` and the persistence calls inside
the same `try` either all succeed (`none`) or raise at the indicated
point. -/
inductive TaskResult where
  | fetchExn
  | fetched (vacancies : List RawVacancy) (fault : Option PersistFault)
  deriving Repr, DecidableEq

/-- Whether the company's iteration reaches the `except` clause: a fetch
exception always does; a persistence fault only when the vacancy list is
non-empty, because the `if vacancies:` guard skips both persistence calls
otherwise. -/
def taskFailed : TaskResult → Bool
  | .fetchExn => true
  | .fetched vs fault => fault.isSome && !vs.isEmpty

/-- The body of the coordinator's `try`/`except` for one company with the
persistence layer's per-call failure behaviour modelled (each call either
completes with its committed effect or raises with the effect described in
`PersistFault`; the engine and driver themselves are external).  Every raise
is caught by the `except` and reported with the company's name. -/
def processCompanyExc (db : DBState) (c : CompanyDesc) :
    TaskResult → DBState × List String
  | .fetchExn => (db, [c.name])
  | .fetched vacancies fault =>
    if vacancies.isEmpty then (db, [])
    else
      match fault with
      | some .atInsertCompany => (db, [c.name])
      | some .atBulk =>
        ((insert_company db c.name c.industry c.area).2, [c.name])
      | none =>
        (insert_vacancies_bulk (insert_company db c.name c.industry c.area).2
          (vacancies.map (normalizeVacancy
            (insert_company db c.name c.industry c.area).1)), [])

/-- One iteration of the coordinator loop under the fault-explicit model. -/
def coordStepExc (acc : DBState × List String)
    (t : CompanyDesc × TaskResult) : DBState × List String :=
  let r := processCompanyExc acc.1 t.1 t.2
  (r.1, acc.2 ++ r.2)

/-- `get_all_vacancies_for_companies` under the fault-explicit model: the
same fold over the futures dict in submission order, with each company's
(fetch outcome, persistence fault) pair given by `TaskResult`. -/
def get_all_vacancies_for_companies_exc (db : DBState)
    (tasks : List (CompanyDesc × TaskResult)) : DBState × List String :=
  tasks.foldl coordStepExc (db, [])

/-- Referential integrity of the store: every vacancy row's `company_id`
names an existing companies row. -/
def refIntegrity (s : DBState) : Prop :=
  ∀ v ∈ s.vacancies, ∃ c ∈ s.companies, c.id = v.company_id

/-! ## Helper lemmas about the companies table -/

theorem filter_name_of_pairwise {l : List CompanyRow} {row : CompanyRow}
    {n : String} (hp : l.Pairwise (fun x y => x.name ≠ y.name))
    (hmem : row ∈ l) (hname : row.name = n) :
    l.filter (fun r => r.name = n) = [row] := by
  induction l with
  | nil => cases hmem
  | cons b t ih =>
    obtain ⟨hb, ht⟩ := List.pairwise_cons.mp hp
    rcases List.mem_cons.mp hmem with rfl | hmem2
    · rw [List.filter_cons, if_pos (by simp [hname])]
      have hnil : t.filter (fun r => r.name = n) = [] := by
        refine List.filter_eq_nil_iff.mpr fun x hx => ?_
        simp only [decide_eq_true_eq]
        intro hxn
        exact hb x hx (by rw [hname, hxn])
      rw [hnil]
    · have hbn : b.name ≠ n := fun h => hb row hmem2 (by rw [h, hname])
      rw [List.filter_cons, if_neg (by simpa using hbn)]
      exact ih ht hmem2

/-- Claim C3: for every company name, calling `insert_company` twice with the
same name returns the same id both times, the second call leaves the database
exactly as the first call left it (so the existing row's attributes are not
modified), and the final companies table holds exactly one row with that
name.  The hypothesis is the `UNIQUE` constraint on `companies.name`. -/
theorem insert_company_idem (s : DBState) (n : String)
    (i a i2 a2 : Option String) (hu : uniqueNames s) :
    (insert_company (insert_company s n i a).2 n i2 a2).1
        = (insert_company s n i a).1 ∧
    (insert_company (insert_company s n i a).2 n i2 a2).2
        = (insert_company s n i a).2 ∧
    ((insert_company (insert_company s n i a).2 n i2 a2).2.companies.filter
        (fun r => r.name = n)).length = 1 := by
  cases h : s.companies.find? (fun row => row.name = n) with
  | some row =>
    have hrow : row.name = n := by simpa using List.find?_some h
    have hmem : row ∈ s.companies := List.mem_of_find?_eq_some h
    simp only [insert_company, h]
    refine ⟨trivial, trivial, ?_⟩
    rw [filter_name_of_pairwise hu hmem hrow]
    rfl
  | none =>
    have hnone : ∀ x ∈ s.companies, ¬ x.name = n := by
      intro x hx
      have := List.find?_eq_none.mp h x hx
      simpa using this
    have hfind2 :
        List.find? (fun row => row.name = n)
            (s.companies ++
              [({ id := s.nextCompanyId, name := n, industry := i,
                  area := a } : CompanyRow)])
          = some { id := s.nextCompanyId, name := n, industry := i,
                   area := a } := by
      rw [List.find?_append, h]
      simp
    simp only [insert_company, h, hfind2]
    refine ⟨trivial, trivial, ?_⟩
    rw [List.filter_append]
    rw [List.filter_eq_nil_iff.mpr (by intro x hx; simpa using hnone x hx)]
    simp

/-- Concrete instantiation of claim C3's theorem: upserting the name
`"Acme"` twice into the empty database. -/
theorem insert_company_idem_witness :
    (insert_company (insert_company DBState.empty "Acme" none none).2
        "Acme" (some "IT") none).1
      = (insert_company DBState.empty "Acme" none none).1 ∧
    (insert_company (insert_company DBState.empty "Acme" none none).2
        "Acme" (some "IT") none).2
      = (insert_company DBState.empty "Acme" none none).2 ∧
    ((insert_company (insert_company DBState.empty "Acme" none none).2
        "Acme" (some "IT") none).2.companies.filter
        (fun r => r.name = "Acme")).length = 1 :=
  insert_company_idem DBState.empty "Acme" none none (some "IT") none
    (List.Pairwise.nil)

/-! ## Helper lemmas about the vacancies table -/

theorem any_url_iff (s : DBState) (u : String) :
    (s.vacancies.any fun row => row.url = u) = true ↔ urlPresent s u := by
  simp [List.any_eq_true, urlPresent]

theorem insertVacancyStep_of_present {s : DBState} {r : VacancyRecord}
    (h : urlPresent s r.url) : insertVacancyStep s r = s := by
  unfold insertVacancyStep
  rw [if_pos ((any_url_iff s r.url).mpr h)]

theorem urlPresent_step_mono {s : DBState} {u : String} (r : VacancyRecord)
    (h : urlPresent s u) : urlPresent (insertVacancyStep s r) u := by
  unfold insertVacancyStep
  split
  · exact h
  · obtain ⟨row, hm, hne⟩ := h
    exact ⟨row, by simp [hm], hne⟩

theorem urlPresent_step_self (s : DBState) (r : VacancyRecord) :
    urlPresent (insertVacancyStep s r) r.url := by
  unfold insertVacancyStep
  split
  · next h => exact (any_url_iff s r.url).mp h
  · exact ⟨⟨s.nextVacancyId, r.title, r.salary_min, r.salary_max, r.url,
      r.company_id⟩, by simp, rfl⟩

theorem urlPresent_bulk_mono {u : String} (rs : List VacancyRecord) :
    ∀ {s : DBState}, urlPresent s u →
      urlPresent (insert_vacancies_bulk s rs) u := by
  induction rs with
  | nil => intro s h; exact h
  | cons r t ih =>
    intro s h
    simpa [insert_vacancies_bulk] using ih (urlPresent_step_mono r h)

theorem bulk_urls_present (rs : List VacancyRecord) :
    ∀ (s : DBState) (r : VacancyRecord), r ∈ rs →
      urlPresent (insert_vacancies_bulk s rs) r.url := by
  induction rs with
  | nil => intro s r hr; cases hr
  | cons b t ih =>
    intro s r hr
    rcases List.mem_cons.mp hr with rfl | hr2
    · simpa [insert_vacancies_bulk] using
        urlPresent_bulk_mono t (urlPresent_step_self s r)
    · simpa [insert_vacancies_bulk] using ih (insertVacancyStep s b) r hr2

theorem bulk_of_all_present {s : DBState} :
    ∀ {rs : List VacancyRecord}, (∀ r ∈ rs, urlPresent s r.url) →
      insert_vacancies_bulk s rs = s := by
  intro rs
  induction rs with
  | nil => intro _; rfl
  | cons b t ih =>
    intro h
    have hb := insertVacancyStep_of_present (h b (by simp))
    simp only [insert_vacancies_bulk, List.foldl_cons, hb]
    exact ih fun r hr => h r (by simp [hr])

/-- Claim C4: re-running `insert_vacancies_bulk` with an identical record set
leaves the vacancies table (and the whole database state) exactly as after
the first run; any single record whose url already exists is skipped without
any change; and of two same-url records in one batch the first wins — the
second is a no-op and the persisted row carries the first record's
`company_id`. -/
theorem insert_vacancies_bulk_idem :
    (∀ (s : DBState) (rs : List VacancyRecord),
        insert_vacancies_bulk (insert_vacancies_bulk s rs) rs
          = insert_vacancies_bulk s rs) ∧
    (∀ (s : DBState) (r : VacancyRecord), urlPresent s r.url →
        insertVacancyStep s r = s) ∧
    (∀ (s : DBState) (r1 r2 : VacancyRecord), r1.url = r2.url →
        insert_vacancies_bulk s [r1, r2] = insert_vacancies_bulk s [r1]) ∧
    (∀ (s : DBState) (r1 r2 : VacancyRecord), ¬ urlPresent s r1.url →
        r1.url = r2.url →
        ∃ row ∈ (insert_vacancies_bulk s [r1, r2]).vacancies,
          row.url = r1.url ∧ row.company_id = r1.company_id) := by
  refine ⟨?_, ?_, ?_, ?_⟩
  · intro s rs
    exact bulk_of_all_present fun r hr => bulk_urls_present rs s r hr
  · intro s r h
    exact insertVacancyStep_of_present h
  · intro s r1 r2 he
    have h2 : urlPresent (insertVacancyStep s r1) r2.url :=
      he ▸ urlPresent_step_self s r1
    simp only [insert_vacancies_bulk, List.foldl_cons, List.foldl_nil]
    exact insertVacancyStep_of_present h2
  · intro s r1 r2 hn he
    have h2 : urlPresent (insertVacancyStep s r1) r2.url :=
      he ▸ urlPresent_step_self s r1
    simp only [insert_vacancies_bulk, List.foldl_cons, List.foldl_nil,
      insertVacancyStep_of_present h2]
    unfold insertVacancyStep
    rw [if_neg (by
      intro hany
      exact hn ((any_url_iff s r1.url).mp hany))]
    exact ⟨⟨s.nextVacancyId, r1.title, r1.salary_min, r1.salary_max, r1.url,
      r1.company_id⟩, by simp, rfl, rfl⟩

/-- Concrete instantiation of claim C4's theorem: a batch holding two records
that share a url, inserted into the empty database. -/
theorem insert_vacancies_bulk_idem_witness :
    insertVacancyStep
        (insert_vacancies_bulk DBState.empty
          [⟨"Dev", some 10, none, "u1", 0⟩])
        ⟨"Other", none, none, "u1", 3⟩
      = insert_vacancies_bulk DBState.empty
          [⟨"Dev", some 10, none, "u1", 0⟩] ∧
    (∃ row ∈ (insert_vacancies_bulk DBState.empty
          [⟨"Dev", some 10, none, "u1", 0⟩, ⟨"Other", none, none, "u1", 3⟩]
        ).vacancies,
        row.url = "u1" ∧ row.company_id = 0) :=
  ⟨insert_vacancies_bulk_idem.2.1 _ _ (by decide),
    insert_vacancies_bulk_idem.2.2.2 _
      ⟨"Dev", some 10, none, "u1", 0⟩ ⟨"Other", none, none, "u1", 3⟩
      (by decide) rfl⟩

/-! ## Pagination lemmas (`get_vacancies_for_company`) -/

theorem fetchLoop_pagination {α : Type} (fetch : Nat → PageResponse α)
    (items : Nat → List α) (k : Nat) :
    ∀ (fuel j : Nat), j ≤ k →
      (∀ i, j ≤ i → i ≤ k → fetch i = .ok (items i)) →
      (∀ i, j ≤ i → i < k → 100 ≤ (items i).length) →
      (items k).length < 100 → k - j < fuel →
      fetchLoop fetch j fuel
        = (List.range' j (k - j + 1),
           ((List.range' j (k - j + 1)).map items).flatten) := by
  intro fuel
  induction fuel with
  | zero => intro j _ _ _ _ hf; omega
  | succ n ih =>
    intro j hjk hsucc hfull hlast hf
    have hfj : fetch j = .ok (items j) := hsucc j le_rfl hjk
    rcases Nat.lt_or_ge j k with hlt | hge
    · have hlen : ¬ (items j).length < 100 := by
        have := hfull j le_rfl hlt
        omega
      have hrec := ih (j + 1) hlt
        (fun i h1 h2 => hsucc i (by omega) h2)
        (fun i h1 h2 => hfull i (by omega) h2)
        hlast (by omega)
      have hkj : k - j + 1 = (k - (j + 1) + 1) + 1 := by omega
      simp only [fetchLoop, hfj, if_neg hlen, hrec, hkj, List.range'_succ,
        List.map_cons, List.flatten_cons]
    · have hjk2 : j = k := by omega
      subst hjk2
      have hkj : j - j + 1 = 1 := by omega
      simp [fetchLoop, hfj, hlast, hkj]

/-- Claim C1: when every page before `k` is a success page with at least 100
items and page `k` is the first page with fewer than 100 (= `pageSize`)
items, `get_vacancies_for_company` called with `pages > k` issues exactly the
`k + 1` page requests `0, 1, ..., k` — in strictly increasing order starting
at 0 — and returns the concatenation of the item lists of pages `0..k` in
that order. -/
theorem get_vacancies_for_company_pagination {α : Type}
    (fetch : Nat → PageResponse α) (items : Nat → List α) (k pages : Nat)
    (hsucc : ∀ i, i ≤ k → fetch i = .ok (items i))
    (hfull : ∀ i, i < k → 100 ≤ (items i).length)
    (hlast : (items k).length < 100)
    (hpages : k < pages) :
    (get_vacancies_for_company fetch pages).1 = List.range (k + 1) ∧
    (get_vacancies_for_company fetch pages).2
      = ((List.range (k + 1)).map items).flatten := by
  have h := fetchLoop_pagination fetch items k pages 0 (by omega)
    (fun i _ h2 => hsucc i h2) (fun i _ h2 => hfull i h2) hlast (by omega)
  rw [get_vacancies_for_company, h]
  rw [List.range_eq_range']
  constructor <;> rfl

/-- Concrete instantiation of claim C1's theorem: page 0 holds 100 items,
page 1 holds one item, five pages are allowed — two requests are issued and
the two pages' items are concatenated. -/
theorem get_vacancies_for_company_pagination_witness :
    (get_vacancies_for_company
        (fun p => if p = 0 then PageResponse.ok (List.replicate 100 7)
                  else if p = 1 then PageResponse.ok [5]
                  else PageResponse.err 404)
        5).1
      = List.range (1 + 1) ∧
    (get_vacancies_for_company
        (fun p => if p = 0 then PageResponse.ok (List.replicate 100 7)
                  else if p = 1 then PageResponse.ok [5]
                  else PageResponse.err 404)
        5).2
      = ((List.range (1 + 1)).map
          (fun i => if i = 0 then List.replicate 100 7 else [5])).flatten :=
  get_vacancies_for_company_pagination
    (fun p => if p = 0 then PageResponse.ok (List.replicate 100 7)
              else if p = 1 then PageResponse.ok [5]
              else PageResponse.err 404)
    (fun i => if i = 0 then List.replicate 100 7 else [5]) 1 5
    (by intro i hi; interval_cases i <;> rfl)
    (by intro i hi; interval_cases i <;> simp)
    (by simp)
    (by omega)

theorem fetchLoop_transport_err {α : Type} (fetch : Nat → PageResponse α)
    (items : Nat → List α) (p status : Nat) :
    ∀ (fuel j : Nat), j ≤ p →
      (∀ i, j ≤ i → i < p → fetch i = .ok (items i)) →
      (∀ i, j ≤ i → i < p → 100 ≤ (items i).length) →
      fetch p = .err status → p - j < fuel →
      fetchLoop fetch j fuel
        = (List.range' j (p - j + 1),
           ((List.range' j (p - j)).map items).flatten) := by
  intro fuel
  induction fuel with
  | zero => intro j _ _ _ _ hf; omega
  | succ n ih =>
    intro j hjp hsucc hfull herr hf
    rcases Nat.lt_or_ge j p with hlt | hge
    · have hfj : fetch j = .ok (items j) := hsucc j le_rfl hlt
      have hlen : ¬ (items j).length < 100 := by
        have := hfull j le_rfl hlt
        omega
      have hrec := ih (j + 1) hlt
        (fun i h1 h2 => hsucc i (by omega) h2)
        (fun i h1 h2 => hfull i (by omega) h2)
        herr (by omega)
      have hk1 : p - j + 1 = (p - (j + 1) + 1) + 1 := by omega
      have hk2 : p - j = (p - (j + 1)) + 1 := by omega
      simp only [fetchLoop, hfj, if_neg hlen, hrec, hk1, hk2,
        List.range'_succ, List.map_cons, List.flatten_cons]
    · have hjp2 : j = p := by omega
      subst hjp2
      have hk1 : j - j + 1 = 1 := by omega
      have hk2 : j - j = 0 := by omega
      simp [fetchLoop, herr, hk1, hk2]

/-- Claim C6: when every page before `p` is a full success page and the
transport answers page `p` with a non-200 status, `get_vacancies_for_company`
(with `pages > p`) stops after the request for page `p` — it requests exactly
pages `0..p` and nothing beyond — and returns the items accumulated from
pages `0..p-1` (partial results are kept, and no exception escapes: the
function still returns a list). -/
theorem get_vacancies_for_company_transport_err {α : Type}
    (fetch : Nat → PageResponse α) (items : Nat → List α)
    (p status pages : Nat)
    (hsucc : ∀ i, i < p → fetch i = .ok (items i))
    (hfull : ∀ i, i < p → 100 ≤ (items i).length)
    (herr : fetch p = .err status)
    (hpages : p < pages) :
    (get_vacancies_for_company fetch pages).1 = List.range (p + 1) ∧
    (get_vacancies_for_company fetch pages).2
      = ((List.range p).map items).flatten := by
  have h := fetchLoop_transport_err fetch items p status pages 0 (by omega)
    (fun i _ h2 => hsucc i h2) (fun i _ h2 => hfull i h2) herr (by omega)
  rw [get_vacancies_for_company, h]
  rw [List.range_eq_range', List.range_eq_range']
  constructor <;> rfl

/-- Concrete instantiation of claim C6's theorem: page 0 holds 100 items and
page 1 answers with status 500 — requests stop at page 1 and page 0's items
are returned. -/
theorem get_vacancies_for_company_transport_err_witness :
    (get_vacancies_for_company
        (fun p => if p = 0 then PageResponse.ok (List.replicate 100 7)
                  else PageResponse.err 500)
        5).1
      = List.range (1 + 1) ∧
    (get_vacancies_for_company
        (fun p => if p = 0 then PageResponse.ok (List.replicate 100 7)
                  else PageResponse.err 500)
        5).2
      = ((List.range 1).map
          (fun i : Nat => List.replicate (100 : Nat) (7 : Nat))).flatten :=
  get_vacancies_for_company_transport_err
    (fun p => if p = 0 then PageResponse.ok (List.replicate 100 7)
              else PageResponse.err 500)
    (fun i : Nat => List.replicate (100 : Nat) (7 : Nat)) 1 500 5
    (by intro i hi; interval_cases i <;> rfl)
    (by intro i hi; interval_cases i <;> simp)
    rfl
    (by omega)

/-! ## Coordinator lemmas -/

theorem insertVacancyStep_companies (s : DBState) (r : VacancyRecord) :
    (insertVacancyStep s r).companies = s.companies := by
  unfold insertVacancyStep
  split <;> rfl

theorem bulk_companies (rs : List VacancyRecord) :
    ∀ (s : DBState), (insert_vacancies_bulk s rs).companies = s.companies := by
  induction rs with
  | nil => intro s; rfl
  | cons r t ih =>
    intro s
    simp only [insert_vacancies_bulk, List.foldl_cons] at *
    rw [ih, insertVacancyStep_companies]

theorem insert_company_companies_mono {s : DBState} {row : CompanyRow}
    (n : String) (i a : Option String) (h : row ∈ s.companies) :
    row ∈ (insert_company s n i a).2.companies := by
  unfold insert_company
  split
  · exact h
  · simp [h]

theorem insert_company_has_row (s : DBState) (n : String)
    (i a : Option String) :
    ∃ row ∈ (insert_company s n i a).2.companies, row.name = n := by
  unfold insert_company
  cases h : s.companies.find? (fun row => row.name = n) with
  | some row =>
    exact ⟨row, List.mem_of_find?_eq_some h, by simpa using List.find?_some h⟩
  | none =>
    exact ⟨{ id := s.nextCompanyId, name := n, industry := i, area := a },
      by simp, rfl⟩

theorem insert_company_id_exists (s : DBState) (n : String)
    (i a : Option String) :
    ∃ row ∈ (insert_company s n i a).2.companies,
      row.id = (insert_company s n i a).1 := by
  unfold insert_company
  cases h : s.companies.find? (fun row => row.name = n) with
  | some row => exact ⟨row, List.mem_of_find?_eq_some h, rfl⟩
  | none =>
    exact ⟨{ id := s.nextCompanyId, name := n, industry := i, area := a },
      by simp, rfl⟩

theorem processCompany_nonempty (d : DBState) (c : CompanyDesc)
    {vs : List RawVacancy} (he : vs.isEmpty = false) :
    processCompany d c (TaskOutcome.ok vs)
      = (insert_vacancies_bulk (insert_company d c.name c.industry c.area).2
          (vs.map (normalizeVacancy
            (insert_company d c.name c.industry c.area).1)), []) := by
  simp [processCompany, he]

theorem processCompany_companies_mono {row : CompanyRow} (d : DBState)
    (c : CompanyDesc) (o : TaskOutcome) (h : row ∈ d.companies) :
    row ∈ (processCompany d c o).1.companies := by
  cases o with
  | exn => exact h
  | ok vs =>
    cases he : vs.isEmpty with
    | true => simpa [processCompany, he] using h
    | false =>
      rw [processCompany_nonempty d c he]
      rw [show (insert_vacancies_bulk
          (insert_company d c.name c.industry c.area).2
          (vs.map (normalizeVacancy
            (insert_company d c.name c.industry c.area).1)),
          ([] : List String)).1
        = insert_vacancies_bulk (insert_company d c.name c.industry c.area).2
            (vs.map (normalizeVacancy
              (insert_company d c.name c.industry c.area).1)) from rfl]
      rw [bulk_companies]
      exact insert_company_companies_mono c.name c.industry c.area h

theorem insert_company_vacancies (s : DBState) (n : String)
    (i a : Option String) :
    (insert_company s n i a).2.vacancies = s.vacancies := by
  unfold insert_company
  split <;> rfl

theorem urlPresent_insert_company {s : DBState} {u : String}
    (n : String) (i a : Option String) (h : urlPresent s u) :
    urlPresent (insert_company s n i a).2 u := by
  obtain ⟨row, hm, hu⟩ := h
  exact ⟨row, by rw [insert_company_vacancies]; exact hm, hu⟩

theorem processCompanyExc_none (d : DBState) (c : CompanyDesc)
    (vs : List RawVacancy) :
    processCompanyExc d c (TaskResult.fetched vs none)
      = processCompany d c (TaskOutcome.ok vs) := rfl

theorem processCompanyExc_failed_report (d : DBState) (b : CompanyDesc)
    (r : TaskResult) (h : taskFailed r = true) :
    (processCompanyExc d b r).2 = [b.name] := by
  cases r with
  | fetchExn => rfl
  | fetched vs fault =>
    simp only [taskFailed, Bool.and_eq_true, Bool.not_eq_true'] at h
    obtain ⟨hf, he⟩ := h
    cases fault with
    | none => simp at hf
    | some pf => cases pf <;> simp [processCompanyExc, he]

theorem processCompanyExc_companies_mono {row : CompanyRow} (d : DBState)
    (c : CompanyDesc) (r : TaskResult) (h : row ∈ d.companies) :
    row ∈ (processCompanyExc d c r).1.companies := by
  cases r with
  | fetchExn => exact h
  | fetched vs fault =>
    cases he : vs.isEmpty with
    | true => simpa [processCompanyExc, he] using h
    | false =>
      cases fault with
      | none =>
        rw [processCompanyExc_none]
        exact processCompany_companies_mono d c (TaskOutcome.ok vs) h
      | some pf =>
        cases pf with
        | atInsertCompany => simpa [processCompanyExc, he] using h
        | atBulk =>
          have hx : (processCompanyExc d c
                (TaskResult.fetched vs (some PersistFault.atBulk))).1
              = (insert_company d c.name c.industry c.area).2 := by
            simp [processCompanyExc, he]
          rw [hx]
          exact insert_company_companies_mono c.name c.industry c.area h

theorem urlPresent_processCompanyExc_mono {u : String} (d : DBState)
    (c : CompanyDesc) (r : TaskResult) (h : urlPresent d u) :
    urlPresent (processCompanyExc d c r).1 u := by
  cases r with
  | fetchExn => exact h
  | fetched vs fault =>
    cases he : vs.isEmpty with
    | true => simpa [processCompanyExc, he] using h
    | false =>
      cases fault with
      | none =>
        rw [processCompanyExc_none, processCompany_nonempty d c he]
        exact urlPresent_bulk_mono _
          (urlPresent_insert_company c.name c.industry c.area h)
      | some pf =>
        cases pf with
        | atInsertCompany => simpa [processCompanyExc, he] using h
        | atBulk =>
          have hx : (processCompanyExc d c
                (TaskResult.fetched vs (some PersistFault.atBulk))).1
              = (insert_company d c.name c.industry c.area).2 := by
            simp [processCompanyExc, he]
          rw [hx]
          exact urlPresent_insert_company c.name c.industry c.area h

theorem foldl_coordStepExc_companies_mono {row : CompanyRow}
    (tasks : List (CompanyDesc × TaskResult)) :
    ∀ (acc : DBState × List String), row ∈ acc.1.companies →
      row ∈ (tasks.foldl coordStepExc acc).1.companies := by
  induction tasks with
  | nil => intro acc h; exact h
  | cons t ts ih =>
    intro acc h
    exact ih (coordStepExc acc t)
      (processCompanyExc_companies_mono acc.1 t.1 t.2 h)

theorem foldl_coordStepExc_url_mono {u : String}
    (tasks : List (CompanyDesc × TaskResult)) :
    ∀ (acc : DBState × List String), urlPresent acc.1 u →
      urlPresent (tasks.foldl coordStepExc acc).1 u := by
  induction tasks with
  | nil => intro acc h; exact h
  | cons t ts ih =>
    intro acc h
    exact ih (coordStepExc acc t)
      (urlPresent_processCompanyExc_mono acc.1 t.1 t.2 h)

theorem mem_errors_foldlExc {e : String}
    (tasks : List (CompanyDesc × TaskResult)) :
    ∀ (acc : DBState × List String), e ∈ acc.2 →
      e ∈ (tasks.foldl coordStepExc acc).2 := by
  induction tasks with
  | nil => intro acc h; exact h
  | cons t ts ih =>
    intro acc h
    exact ih (coordStepExc acc t) (by simp [coordStepExc, h])

theorem foldl_coordStepExc_state_only
    (tasks : List (CompanyDesc × TaskResult)) :
    ∀ (x y : DBState × List String), x.1 = y.1 →
      (tasks.foldl coordStepExc x).1 = (tasks.foldl coordStepExc y).1 := by
  induction tasks with
  | nil => intro x y h; exact h
  | cons t ts ih =>
    intro x y h
    exact ih (coordStepExc x t) (coordStepExc y t) (by simp [coordStepExc, h])

theorem processCompanyExc_persists (d : DBState) (c : CompanyDesc)
    {vs : List RawVacancy} (he : vs.isEmpty = false) :
    (∃ row ∈ (processCompanyExc d c
        (TaskResult.fetched vs none)).1.companies, row.name = c.name) ∧
    ∀ v ∈ vs,
      urlPresent (processCompanyExc d c (TaskResult.fetched vs none)).1
        (v.alternate_url.getD "Нет ссылки") := by
  rw [processCompanyExc_none, processCompany_nonempty d c he]
  constructor
  · obtain ⟨row, hrow, hname⟩ :=
      insert_company_has_row d c.name c.industry c.area
    refine ⟨row, ?_, hname⟩
    show row ∈ (insert_vacancies_bulk
        (insert_company d c.name c.industry c.area).2
        (vs.map (normalizeVacancy
          (insert_company d c.name c.industry c.area).1))).companies
    rw [bulk_companies]
    exact hrow
  · intro v hv
    have hrec := List.mem_map_of_mem
      (normalizeVacancy (insert_company d c.name c.industry c.area).1) hv
    have hu := bulk_urls_present
      (vs.map (normalizeVacancy (insert_company d c.name c.industry c.area).1))
      (insert_company d c.name c.industry c.area).2 _ hrec
    simpa [normalizeVacancy] using hu

theorem foldl_coordStepExc_persists (c : CompanyDesc) (vs : List RawVacancy)
    (hvs : vs ≠ []) (tasks : List (CompanyDesc × TaskResult)) :
    ∀ (acc : DBState × List String),
      (c, TaskResult.fetched vs none) ∈ tasks →
      (∃ row ∈ (tasks.foldl coordStepExc acc).1.companies,
          row.name = c.name) ∧
      ∀ v ∈ vs, urlPresent (tasks.foldl coordStepExc acc).1
          (v.alternate_url.getD "Нет ссылки") := by
  have he : vs.isEmpty = false := by simpa using hvs
  induction tasks with
  | nil => intro acc h; cases h
  | cons t ts ih =>
    intro acc hmem
    rcases List.mem_cons.mp hmem with heq | hmem2
    · subst heq
      rw [List.foldl_cons]
      obtain ⟨⟨row, hrow, hname⟩, hurls⟩ := processCompanyExc_persists acc.1 c he
      constructor
      · exact ⟨row, foldl_coordStepExc_companies_mono ts
          (coordStepExc acc (c, TaskResult.fetched vs none)) hrow, hname⟩
      · intro v hv
        exact foldl_coordStepExc_url_mono ts
          (coordStepExc acc (c, TaskResult.fetched vs none)) (hurls v hv)
    · rw [List.foldl_cons]
      exact ih (coordStepExc acc t) hmem2

/-- Claim C7: a company whose fetch returned the empty vacancy sequence
triggers no persistence call: `processCompany` leaves any database state
untouched for it, and the whole run over a company list containing it
produces exactly the result of the run without it — no company row, no
vacancy row, and no other change is made for that company. -/
theorem coordinator_empty_no_persistence (db : DBState)
    (pre post : List (CompanyDesc × TaskOutcome)) (c : CompanyDesc) :
    get_all_vacancies_for_companies db (pre ++ (c, TaskOutcome.ok []) :: post)
      = get_all_vacancies_for_companies db (pre ++ post) ∧
    (∀ (d : DBState), processCompany d c (TaskOutcome.ok []) = (d, [])) := by
  have hp : ∀ (d : DBState), processCompany d c (TaskOutcome.ok []) = (d, []) := by
    intro d
    simp [processCompany]
  refine ⟨?_, hp⟩
  unfold get_all_vacancies_for_companies
  rw [List.foldl_append, List.foldl_append, List.foldl_cons]
  have hstep : ∀ (acc : DBState × List String),
      coordStep acc (c, TaskOutcome.ok []) = acc := by
    intro acc
    simp [coordStep, hp]
  rw [hstep]

/-- Claim C5: whether one company's task raises during the fetch
(`future.result()` re-raising) or during persistence (`insert_company` or
`insert_vacancies_bulk` raising inside the same `try`), the coordinator
catches the exception at the per-company boundary and reports it with that
company's name; every other company's task still completes and persists its
results — its company row and all of its vacancies' urls are in the final
state; the run always finishes, the fold returning a final state and report
list after every dispatched task; and for a pure fetch failure the final
state is exactly that of the run without the failing company. -/
theorem coordinator_isolates_failures (db : DBState)
    (pre post : List (CompanyDesc × TaskResult)) (b : CompanyDesc)
    (bres : TaskResult) (hb : taskFailed bres = true) :
    b.name ∈ (get_all_vacancies_for_companies_exc db
        (pre ++ (b, bres) :: post)).2 ∧
    (∀ (c : CompanyDesc) (vs : List RawVacancy),
      (c, TaskResult.fetched vs none) ∈ pre ++ post → vs ≠ [] →
      (∃ row ∈ (get_all_vacancies_for_companies_exc db
          (pre ++ (b, bres) :: post)).1.companies, row.name = c.name) ∧
      ∀ v ∈ vs,
        urlPresent (get_all_vacancies_for_companies_exc db
            (pre ++ (b, bres) :: post)).1
          (v.alternate_url.getD "Нет ссылки")) ∧
    (bres = TaskResult.fetchExn →
      (get_all_vacancies_for_companies_exc db (pre ++ (b, bres) :: post)).1
        = (get_all_vacancies_for_companies_exc db (pre ++ post)).1) := by
  refine ⟨?_, ?_, ?_⟩
  · unfold get_all_vacancies_for_companies_exc
    rw [List.foldl_append, List.foldl_cons]
    refine mem_errors_foldlExc post _ ?_
    rw [show (coordStepExc (List.foldl coordStepExc (db, []) pre) (b, bres)).2
        = (List.foldl coordStepExc (db, []) pre).2
            ++ (processCompanyExc (List.foldl coordStepExc (db, []) pre).1
                  b bres).2
          from rfl,
      processCompanyExc_failed_report _ b bres hb]
    simp
  · intro c vs hmem hvs
    have hmem2 : (c, TaskResult.fetched vs none) ∈ pre ++ (b, bres) :: post := by
      rcases List.mem_append.mp hmem with h | h
      · exact List.mem_append.mpr (Or.inl h)
      · exact List.mem_append.mpr (Or.inr (List.mem_cons.mpr (Or.inr h)))
    exact foldl_coordStepExc_persists c vs hvs _ _ hmem2
  · intro hfe
    subst hfe
    unfold get_all_vacancies_for_companies_exc
    rw [List.foldl_append, List.foldl_append, List.foldl_cons]
    exact foldl_coordStepExc_state_only post _ _ rfl

/-- Concrete instantiation of claim C5's theorem: companies A, B, C are
dispatched, B's bulk insert raises after its company upsert (a persistence
failure); B is reported, while A — dispatched before B — still has its
company row and its vacancy's url persisted in the final state. -/
theorem coordinator_isolates_failures_witness :
    "B" ∈ (get_all_vacancies_for_companies_exc DBState.empty
        ([(⟨some "1", "A", none, none⟩, TaskResult.fetched
            [⟨some "dev", some ⟨some 10, some 20⟩, some "uA"⟩] none)] ++
          (⟨some "2", "B", none, none⟩, TaskResult.fetched
            [⟨some "qa", none, some "uB"⟩] (some PersistFault.atBulk)) ::
          [(⟨some "3", "C", none, none⟩, TaskResult.fetched
            [⟨some "ops", none, some "uC"⟩] none)])).2 ∧
    (∃ row ∈ (get_all_vacancies_for_companies_exc DBState.empty
        ([(⟨some "1", "A", none, none⟩, TaskResult.fetched
            [⟨some "dev", some ⟨some 10, some 20⟩, some "uA"⟩] none)] ++
          (⟨some "2", "B", none, none⟩, TaskResult.fetched
            [⟨some "qa", none, some "uB"⟩] (some PersistFault.atBulk)) ::
          [(⟨some "3", "C", none, none⟩, TaskResult.fetched
            [⟨some "ops", none, some "uC"⟩] none)])).1.companies,
      row.name = "A") ∧
    urlPresent (get_all_vacancies_for_companies_exc DBState.empty
        ([(⟨some "1", "A", none, none⟩, TaskResult.fetched
            [⟨some "dev", some ⟨some 10, some 20⟩, some "uA"⟩] none)] ++
          (⟨some "2", "B", none, none⟩, TaskResult.fetched
            [⟨some "qa", none, some "uB"⟩] (some PersistFault.atBulk)) ::
          [(⟨some "3", "C", none, none⟩, TaskResult.fetched
            [⟨some "ops", none, some "uC"⟩] none)])).1
      ((⟨some "dev", some ⟨some 10, some 20⟩, some "uA"⟩ :
          RawVacancy).alternate_url.getD "Нет ссылки") :=
  have h := coordinator_isolates_failures DBState.empty
    [(⟨some "1", "A", none, none⟩, TaskResult.fetched
        [⟨some "dev", some ⟨some 10, some 20⟩, some "uA"⟩] none)]
    [(⟨some "3", "C", none, none⟩, TaskResult.fetched
        [⟨some "ops", none, some "uC"⟩] none)]
    ⟨some "2", "B", none, none⟩
    (TaskResult.fetched [⟨some "qa", none, some "uB"⟩]
      (some PersistFault.atBulk))
    rfl
  have hA := h.2.1 ⟨some "1", "A", none, none⟩
    [⟨some "dev", some ⟨some 10, some 20⟩, some "uA"⟩] (by simp) (by simp)
  ⟨h.1, hA.1,
    hA.2 ⟨some "dev", some ⟨some 10, some 20⟩, some "uA"⟩ (by simp)⟩

/-! ## Referential-integrity lemmas -/

theorem bulk_refIntegrity {s : DBState} {rs : List VacancyRecord} :
    ∀ (d : DBState), d.companies = s.companies →
      (∀ r ∈ rs, ∃ c ∈ s.companies, c.id = r.company_id) →
      (∀ v ∈ d.vacancies, ∃ c ∈ s.companies, c.id = v.company_id) →
      ∀ v ∈ (insert_vacancies_bulk d rs).vacancies,
        ∃ c ∈ s.companies, c.id = v.company_id := by
  induction rs with
  | nil => intro d _ _ hd v hv; exact hd v hv
  | cons r t ih =>
    intro d hdc hr hd v hv
    simp only [insert_vacancies_bulk, List.foldl_cons] at hv
    refine ih (insertVacancyStep d r) ?_ (fun x hx => hr x (by simp [hx])) ?_ v hv
    · rw [insertVacancyStep_companies, hdc]
    · intro w hw
      unfold insertVacancyStep at hw
      split at hw
      · exact hd w hw
      · rcases List.mem_append.mp hw with hw2 | hw2
        · exact hd w hw2
        · have : w = ⟨d.nextVacancyId, r.title, r.salary_min, r.salary_max,
              r.url, r.company_id⟩ := by simpa using hw2
          subst this
          exact hr r (by simp)

theorem processCompany_refIntegrity (d : DBState) (c : CompanyDesc)
    (o : TaskOutcome) (h : refIntegrity d) :
    refIntegrity (processCompany d c o).1 := by
  cases o with
  | exn => exact h
  | ok vs =>
    cases he : vs.isEmpty with
    | true =>
      have : processCompany d c (TaskOutcome.ok vs) = (d, []) := by
        simp [processCompany, he]
      rw [this]
      exact h
    | false =>
      rw [processCompany_nonempty d c he]
      intro v hv
      have hr : ∀ r ∈ vs.map (normalizeVacancy
            (insert_company d c.name c.industry c.area).1),
          ∃ cc ∈ (insert_company d c.name c.industry c.area).2.companies,
            cc.id = r.company_id := by
        intro r hrm
        obtain ⟨w, hw, rfl⟩ := List.mem_map.mp hrm
        obtain ⟨crow, hcrow, hcid⟩ :=
          insert_company_id_exists d c.name c.industry c.area
        exact ⟨crow, hcrow, by simp [normalizeVacancy, hcid]⟩
      have hd0 : ∀ w ∈ (insert_company d c.name c.industry c.area).2.vacancies,
          ∃ cc ∈ (insert_company d c.name c.industry c.area).2.companies,
            cc.id = w.company_id := by
        intro w hw
        have hvac : (insert_company d c.name c.industry c.area).2.vacancies
            = d.vacancies := by
          unfold insert_company
          split <;> rfl
        rw [hvac] at hw
        obtain ⟨crow, hcrow, hcid⟩ := h w hw
        exact ⟨crow,
          insert_company_companies_mono c.name c.industry c.area hcrow, hcid⟩
      obtain ⟨cc, hcc, hccid⟩ := bulk_refIntegrity _ rfl hr hd0 v hv
      exact ⟨cc, by rw [bulk_companies]; exact hcc, hccid⟩

theorem coordStep_refIntegrity (acc : DBState × List String)
    (t : CompanyDesc × TaskOutcome) (h : refIntegrity acc.1) :
    refIntegrity (coordStep acc t).1 :=
  processCompany_refIntegrity acc.1 t.1 t.2 h

/-- Claim C8: the coordinator resolves the company id through
`insert_company` before inserting that company's vacancies, and every
normalized record carries exactly that id; consequently referential
integrity — every vacancy row's `company_id` references an existing
companies row — is preserved by the whole run from any state satisfying
it. -/
theorem coordinator_refIntegrity (db : DBState)
    (tasks : List (CompanyDesc × TaskOutcome)) (h : refIntegrity db) :
    refIntegrity (get_all_vacancies_for_companies db tasks).1 ∧
    (∀ (d : DBState) (c : CompanyDesc) (vs : List RawVacancy),
      ∀ r ∈ vs.map (normalizeVacancy
          (insert_company d c.name c.industry c.area).1),
        r.company_id = (insert_company d c.name c.industry c.area).1) := by
  constructor
  · unfold get_all_vacancies_for_companies
    have : ∀ (ts : List (CompanyDesc × TaskOutcome))
        (acc : DBState × List String), refIntegrity acc.1 →
        refIntegrity (ts.foldl coordStep acc).1 := by
      intro ts
      induction ts with
      | nil => intro acc hacc; exact hacc
      | cons t ts2 ih =>
        intro acc hacc
        exact ih (coordStep acc t) (coordStep_refIntegrity acc t hacc)
    exact this tasks (db, []) h
  · intro d c vs r hr
    obtain ⟨w, hw, rfl⟩ := List.mem_map.mp hr
    simp [normalizeVacancy]

/-- Concrete instantiation of claim C8's theorem: starting from the empty
database (which trivially satisfies referential integrity), a two-company
run preserves referential integrity. -/
theorem coordinator_refIntegrity_witness :
    refIntegrity (get_all_vacancies_for_companies DBState.empty
        [(⟨some "1", "A", none, none⟩, TaskOutcome.ok
            [⟨some "dev", some ⟨some 10, some 20⟩, some "uA"⟩]),
         (⟨some "2", "B", none, none⟩, TaskOutcome.ok
            [⟨some "qa", none, some "uB"⟩])]).1 :=
  (coordinator_refIntegrity DBState.empty
    [(⟨some "1", "A", none, none⟩, TaskOutcome.ok
        [⟨some "dev", some ⟨some 10, some 20⟩, some "uA"⟩]),
     (⟨some "2", "B", none, none⟩, TaskOutcome.ok
        [⟨some "qa", none, some "uB"⟩])]
    (fun v hv => absurd hv (List.not_mem_nil v))).1

/-! ## `LIKE` pattern lemmas and the keyword queries -/

theorem likeMatch_percent_nil (p : List Char) :
    likeMatch ('%' :: p) [] = likeMatch p [] := by
  rw [likeMatch.eq_def]
  simp

theorem likeMatch_percent_cons (p : List Char) (a : Char) (t : List Char) :
    likeMatch ('%' :: p) (a :: t)
      = (likeMatch p (a :: t) || likeMatch ('%' :: p) t) := by
  rw [likeMatch.eq_def]
  simp

theorem likeMatch_lit_cons (c : Char) (p s : List Char)
    (h1 : c ≠ '\\') (h2 : c ≠ '%') (h3 : c ≠ '_') :
    likeMatch (c :: p) s
      = (match s with
         | [] => false
         | c2 :: s2 => (c = c2 : Bool) && likeMatch p s2) := by
  rw [likeMatch.eq_def]
  simp [h1, h2, h3]

theorem likeMatch_percent_iff (p : List Char) :
    ∀ S, likeMatch ('%' :: p) S = true ↔
      ∃ s₁ s₂, S = s₁ ++ s₂ ∧ likeMatch p s₂ = true := by
  intro S
  induction S with
  | nil =>
    rw [likeMatch_percent_nil]
    constructor
    · intro h
      exact ⟨[], [], rfl, h⟩
    · rintro ⟨s₁, s₂, hs, h⟩
      obtain ⟨rfl, rfl⟩ := List.append_eq_nil.mp hs.symm
      exact h
  | cons a t ih =>
    rw [likeMatch_percent_cons, Bool.or_eq_true]
    constructor
    · rintro (h | h)
      · exact ⟨[], a :: t, rfl, h⟩
      · obtain ⟨s₁, s₂, rfl, hm⟩ := ih.mp h
        exact ⟨a :: s₁, s₂, rfl, hm⟩
    · rintro ⟨s₁, s₂, hs, hm⟩
      cases s₁ with
      | nil =>
        simp only [List.nil_append] at hs
        subst hs
        exact Or.inl hm
      | cons b s₁ =>
        obtain ⟨rfl, rfl⟩ : a = b ∧ t = s₁ ++ s₂ := by
          simpa using hs
        exact Or.inr (ih.mpr ⟨s₁, s₂, rfl, hm⟩)

theorem likeMatch_lone_percent : ∀ S : List Char, likeMatch ['%'] S = true := by
  intro S
  induction S with
  | nil => rw [likeMatch_percent_nil]; simp [likeMatch]
  | cons a t ih => simp [likeMatch_percent_cons, ih]

theorem likeMatch_tail_percent (K : List Char)
    (hK : ∀ ch ∈ K, ch ≠ '%' ∧ ch ≠ '_' ∧ ch ≠ '\\') :
    ∀ S, likeMatch (K ++ ['%']) S = true ↔ K <+: S := by
  induction K with
  | nil =>
    intro S
    simp only [List.nil_append]
    constructor
    · intro _
      exact List.nil_prefix
    · intro _
      exact likeMatch_lone_percent S
  | cons c K ih =>
    intro S
    obtain ⟨h2, h3, h1⟩ := hK c (by simp)
    rw [List.cons_append,
      likeMatch_lit_cons c (K ++ ['%']) S h1 h2 h3]
    cases S with
    | nil => simp
    | cons b S =>
      have ihS := ih (fun ch hch => hK ch (by simp [hch])) S
      simp only [Bool.and_eq_true, decide_eq_true_eq, ihS,
        List.cons_prefix_cons]

theorem likeMatch_pattern_iff (K S : List Char)
    (hK : ∀ ch ∈ K, ch ≠ '%' ∧ ch ≠ '_' ∧ ch ≠ '\\') :
    likeMatch ('%' :: (K ++ ['%'])) S = true ↔ K <:+: S := by
  rw [likeMatch_percent_iff]
  constructor
  · rintro ⟨s₁, s₂, rfl, hm⟩
    exact List.infix_iff_prefix_suffix.mpr
      ⟨s₂, (likeMatch_tail_percent K hK s₂).mp hm, List.suffix_append s₁ s₂⟩
  · intro h
    obtain ⟨t, hpre, hsuf⟩ := List.infix_iff_prefix_suffix.mp h
    obtain ⟨s₁, rfl⟩ := hsuf
    exact ⟨s₁, t, rfl, (likeMatch_tail_percent K hK t).mpr hpre⟩

theorem toNat_ofNat_valid (n : Nat) (h : n.isValidChar) :
    (Char.ofNat n).toNat = n := by
  unfold Char.ofNat
  rw [dif_pos h]
  rfl

theorem toLower_ne_low (c t : Char) (ht : t.toNat < 97) (h : c ≠ t) :
    Char.toLower c ≠ t := by
  by_cases hc : c.toNat ≥ 65 ∧ c.toNat ≤ 90
  · have hv : (c.toNat + 32).isValidChar := by
      unfold Nat.isValidChar
      left
      omega
    have hlow : (Char.toLower c).toNat = c.toNat + 32 := by
      simp only [Char.toLower, hc, and_self, if_true]
      exact toNat_ofNat_valid _ hv
    intro heq
    rw [heq] at hlow
    omega
  · simpa [Char.toLower, hc] using h

theorem strLower_noWild {kw : String}
    (hkw : ∀ ch ∈ kw.toList, ch ≠ '%' ∧ ch ≠ '_' ∧ ch ≠ '\\') :
    ∀ ch ∈ strLower kw, ch ≠ '%' ∧ ch ≠ '_' ∧ ch ≠ '\\' := by
  intro ch hch
  obtain ⟨c0, hc0, rfl⟩ := List.mem_map.mp hch
  obtain ⟨h1, h2, h3⟩ := hkw c0 hc0
  exact ⟨toLower_ne_low c0 '%' (by decide) h1,
    toLower_ne_low c0 '_' (by decide) h2,
    toLower_ne_low c0 '\\' (by decide) h3⟩

theorem strLower_pattern (kw : String) :
    strLower ("%" ++ kw ++ "%") = '%' :: (strLower kw ++ ['%']) := by
  show (("%" ++ kw ++ "%").data.map Char.toLower) = _
  rw [String.data_append, String.data_append]
  show ((['%'] ++ kw.data ++ ['%']).map Char.toLower) = _
  simp [strLower, String.toList]

theorem containsSub_iff (n : List Char) :
    ∀ h, containsSub n h = true ↔ n <:+: h := by
  intro h
  induction h with
  | nil =>
    show n.isEmpty = true ↔ _
    rw [List.isEmpty_iff, List.infix_nil]
  | cons c t ih =>
    show (n.isPrefixOf (c :: t) || containsSub n t) = true ↔ _
    rw [Bool.or_eq_true, List.isPrefixOf_iff_prefix, ih,
      List.infix_cons_iff]

/-- Counterexample to claim C9 as stated: with the keyword `"_"` — a single
`LIKE` wildcard — `get_vacancies_with_keyword` returns a vacancy titled
`"a"` even though `"_"` is not a substring of `"a"`; the claimed
characterisation fails for keywords containing `%`, `_` or `\`. -/
theorem keyword_search_ilike_counterexample :
    get_vacancies_with_keyword
        ⟨[⟨0, "A", none, none⟩], [⟨0, "a", none, none, "u", 0⟩], 1, 1⟩ "_"
      = [(⟨0, "a", none, none, "u", 0⟩, ⟨0, "A", none, none⟩)] ∧
    ¬ (strLower "_" <:+: strLower "a") := by
  constructor
  · simp [get_vacancies_with_keyword, joinedRows, ilike, strLower,
      String.toList, likeMatch]
  · decide

/-- Amended claim C9: `get_vacancies_with_keyword` returns exactly the
joined rows whose lowercased title contains the lowercased keyword as a
substring provided the keyword contains none of the `LIKE` metacharacters
`%`, `_`, `\` (otherwise `ILIKE` pattern semantics apply); the in-memory
`search_vacancies_by_keyword` selects by case-insensitive substring for
every keyword. -/
theorem keyword_search_amended :
    (∀ (s : DBState) (kw : String),
      (∀ ch ∈ kw.toList, ch ≠ '%' ∧ ch ≠ '_' ∧ ch ≠ '\\') →
      ∀ p, p ∈ get_vacancies_with_keyword s kw ↔
        p ∈ joinedRows s ∧ strLower kw <:+: strLower p.1.title) ∧
    (∀ (kw : String) (vs : List RawVacancy) (v : RawVacancy),
      v ∈ matchingVacancies (strLower kw) vs ↔
        v ∈ vs ∧ strLower kw <:+: strLower (v.name.getD "")) := by
  constructor
  · intro s kw hkw p
    rw [get_vacancies_with_keyword, List.mem_filter]
    have hpat : ilike p.1.title ("%" ++ kw ++ "%")
        = likeMatch ('%' :: (strLower kw ++ ['%'])) (strLower p.1.title) := by
      rw [ilike, strLower_pattern]
    rw [hpat,
      likeMatch_pattern_iff (strLower kw) (strLower p.1.title)
        (strLower_noWild hkw)]
  · intro kw vs v
    rw [matchingVacancies, List.mem_filter, containsSub_iff]

/-- Concrete instantiation of the amended claim C9's theorem: keyword
`"dev"` against a one-vacancy database titled `"Dev Lead"`, and against the
in-memory grouping. -/
theorem keyword_search_amended_witness :
    ((⟨0, "Dev Lead", none, none, "u", 0⟩, ⟨0, "A", none, none⟩)
        ∈ get_vacancies_with_keyword
          ⟨[⟨0, "A", none, none⟩], [⟨0, "Dev Lead", none, none, "u", 0⟩], 1, 1⟩
          "dev" ↔
      (⟨0, "Dev Lead", none, none, "u", 0⟩, ⟨0, "A", none, none⟩)
        ∈ joinedRows
          ⟨[⟨0, "A", none, none⟩], [⟨0, "Dev Lead", none, none, "u", 0⟩], 1, 1⟩ ∧
      strLower "dev" <:+: strLower "Dev Lead") ∧
    ((⟨some "Dev Lead", none, some "u"⟩ : RawVacancy)
        ∈ matchingVacancies (strLower "dev") [⟨some "Dev Lead", none, some "u"⟩] ↔
      (⟨some "Dev Lead", none, some "u"⟩ : RawVacancy)
        ∈ [(⟨some "Dev Lead", none, some "u"⟩ : RawVacancy)] ∧
      strLower "dev" <:+: strLower ((some "Dev Lead").getD "")) :=
  ⟨keyword_search_amended.1
      ⟨[⟨0, "A", none, none⟩], [⟨0, "Dev Lead", none, none, "u", 0⟩], 1, 1⟩
      "dev" (by decide)
      (⟨0, "Dev Lead", none, none, "u", 0⟩, ⟨0, "A", none, none⟩),
    keyword_search_amended.2 "dev" [⟨some "Dev Lead", none, some "u"⟩]
      ⟨some "Dev Lead", none, some "u"⟩⟩

/-! ## Average-salary lemmas -/

theorem sum_map_ite_filter (l : List VacancyRow) :
    (l.map fun r => if qualifies r then midpoint r else 0).sum
      = ((l.filter qualifies).map midpoint).sum := by
  induction l with
  | nil => rfl
  | cons r t ih =>
    by_cases hr : qualifies r <;> simp [List.filter_cons, hr, ih]

theorem salaryAccStep_eq (acc : Rat × Nat) (v : RawVacancy) :
    salaryAccStep acc v
      = if truthyContributes v then (acc.1 + truthyAmount v, acc.2 + 1)
        else acc := by
  cases hv : v.salary with
  | none => simp [salaryAccStep, truthyContributes, hv]
  | some sal =>
    simp only [salaryAccStep, truthyContributes, hv]
    by_cases h1 : coalesce0 sal.sfrom = 0 <;>
      by_cases h2 : coalesce0 sal.sto = 0 <;>
      simp [h1, h2, truthyAmount, hv]

theorem salaryAccStep_foldl (l : List RawVacancy) :
    ∀ (acc : Rat × Nat),
      l.foldl salaryAccStep acc
        = (acc.1 + ((l.filter truthyContributes).map truthyAmount).sum,
           acc.2 + (l.filter truthyContributes).length) := by
  induction l with
  | nil => intro acc; simp
  | cons v t ih =>
    intro acc
    rw [List.foldl_cons, ih, salaryAccStep_eq]
    by_cases htc : truthyContributes v
    · rw [if_pos htc]
      simp only [List.filter_cons, htc, if_true, List.map_cons,
        List.sum_cons, List.length_cons, Prod.mk.injEq]
      constructor
      · ring
      · omega
    · rw [if_neg htc]
      simp [List.filter_cons, htc]

theorem salaryTotals_spec (vbc : List (String × List RawVacancy)) :
    salaryTotals vbc
      = ((((vbc.map Prod.snd).flatten.filter truthyContributes).map
            truthyAmount).sum,
         ((vbc.map Prod.snd).flatten.filter truthyContributes).length) := by
  have hgo : ∀ (l : List (String × List RawVacancy)) (acc : Rat × Nat),
      l.foldl (fun a p => p.2.foldl salaryAccStep a) acc
        = (acc.1 + (((l.map Prod.snd).flatten.filter truthyContributes).map
              truthyAmount).sum,
           acc.2 + ((l.map Prod.snd).flatten.filter truthyContributes).length) := by
    intro l
    induction l with
    | nil => intro acc; simp
    | cons p rest ih =>
      intro acc
      rw [List.foldl_cons, ih, salaryAccStep_foldl]
      simp only [List.map_cons, List.flatten_cons, List.filter_append,
        List.map_append, List.sum_append, List.length_append, Prod.mk.injEq]
      constructor
      · ring
      · omega
  have h := hgo vbc (0, 0)
  simpa [salaryTotals] using h

/-- Counterexample to claim C2 as stated: for the single vacancy whose
salary is `{from: 1000, to: null}`, `calculate_average_salary` returns 1000
— the single truthy bound itself — while the claimed mean of midpoints
`(coalesce(min,0) + coalesce(max,0)) / 2` over vacancies with at least one
bound present is 500. -/
theorem average_salary_counterexample :
    calculate_average_salary
        [("A", [⟨some "x", some ⟨some 1000, none⟩, none⟩])] = 1000 ∧
    claimAverageSalary
        [("A", [⟨some "x", some ⟨some 1000, none⟩, none⟩])] = 500 ∧
    calculate_average_salary
        [("A", [⟨some "x", some ⟨some 1000, none⟩, none⟩])]
      ≠ claimAverageSalary
          [("A", [⟨some "x", some ⟨some 1000, none⟩, none⟩])] := by
  have h1 : calculate_average_salary
      [("A", [⟨some "x", some ⟨some 1000, none⟩, none⟩])] = 1000 := by
    norm_num [calculate_average_salary, salaryTotals, salaryAccStep, coalesce0]
  have h2 : claimAverageSalary
      [("A", [⟨some "x", some ⟨some 1000, none⟩, none⟩])] = 500 := by
    norm_num [claimAverageSalary, claimContributes, claimMidpoint, coalesce0]
  refine ⟨h1, h2, ?_⟩
  rw [h1, h2]
  norm_num

/-- Amended claim C2: the SQL `get_avg_salary` query does return the
arithmetic mean of the midpoints `(coalesce(min,0)+coalesce(max,0))/2` over
exactly the rows with at least one non-null bound — rows with both bounds
absent contribute neither to the sum nor to the count; the in-memory
`calculate_average_salary`, however, counts a vacancy exactly when its
salary object carries at least one non-null and non-zero bound, a vacancy
with both such bounds contributes the midpoint, and a vacancy with exactly
one contributes that bound itself. -/
theorem average_salary_amended :
    (∀ (s : DBState), get_avg_salary s = claimAvgRows s) ∧
    (∀ (vbc : List (String × List RawVacancy)),
      calculate_average_salary vbc = amendedAverageSalary vbc) := by
  constructor
  · intro s
    simp only [get_avg_salary, claimAvgRows, sum_map_ite_filter]
    cases hq : s.vacancies.filter qualifies with
    | nil => simp
    | cons x xs => simp
  · intro vbc
    have hs := salaryTotals_spec vbc
    simp only [calculate_average_salary, amendedAverageSalary, hs]
    cases hq : (vbc.map Prod.snd).flatten.filter truthyContributes with
    | nil => simp
    | cons x xs => simp

/-- Claim C10: `calculate_average_salary` is total on every
vacancies-by-company mapping: with a zero salary count it returns 0 instead
of dividing, and the division branch is taken exactly when the accumulated
count is positive. -/
theorem calculate_average_salary_total
    (vbc : List (String × List RawVacancy)) :
    ((salaryTotals vbc).2 = 0 → calculate_average_salary vbc = 0) ∧
    (0 < (salaryTotals vbc).2 →
      calculate_average_salary vbc
        = (salaryTotals vbc).1 / (((salaryTotals vbc).2 : Nat) : Rat)) := by
  constructor
  · intro h
    simp [calculate_average_salary, h]
  · intro h
    simp [calculate_average_salary, h]

/-- Concrete instantiation of claim C10's theorem: a mapping whose only
vacancy has no salary object at all yields count 0 and average 0. -/
theorem calculate_average_salary_total_witness :
    (salaryTotals [("A", [⟨some "x", none, none⟩])]).2 = 0 ∧
    calculate_average_salary [("A", [⟨some "x", none, none⟩])] = 0 :=
  ⟨rfl, (calculate_average_salary_total [("A", [⟨some "x", none, none⟩])]).1 rfl⟩

end Pipeline
